import Mathlib

/-!
Shallow embedding of the taxonomy-normalization and incremental-merge
pipeline of `topic_modeling_agent.py` (repository DanielDi/agent_tech_mining).

The embedded core is:
* the vocabulary load of lines 13-23 and the live `normalize_map` of line 54,
* the per-category normalization loop of `process_pdf` (lines 110-123),
* `save_methods` (lines 125-127),
* the per-document batch loop and the Excel merge of `main` (lines 146-170).

Python strings are modelled as Lean `String`; the handful of `str` methods the
program uses (`split(";")`, `strip()`, `lower()`, `"; ".join`) are defined
explicitly at the character-list level so that their behaviour matches the
Python semantics on the inputs the program manipulates.  Python `dict`s are
ordered association lists, Python `set`s are duplicate-free lists built by
idempotent insertion (iteration order of a Python set is unspecified; the
program only sorts or tests membership on these sets, so any duplicate-free
representative is adequate).  Fallible pandas operations are modelled with
`Except`.
-/

/-- Python `s.split(";")` at the character-list level: split at every
occurrence of the separator character, keeping empty pieces (so the result is
never empty, and splitting the empty string yields `[[]]`, matching Python's
`"".split(";") == [""]`). -/
def splitChar (c : Char) : List Char → List (List Char)
  | [] => [[]]
  | a :: rest =>
    let r := splitChar c rest
    if a = c then [] :: r else (a :: r.headI) :: r.tail

/-- Removal of trailing whitespace at the character-list level (the right half
of Python `str.strip()`). -/
def stripTrail : List Char → List Char
  | [] => []
  | a :: rest =>
    match stripTrail rest with
    | [] => if a.isWhitespace then [] else [a]
    | b :: t => a :: b :: t

/-- Python `str.strip()` at the character-list level: drop leading and trailing
whitespace. -/
def pyStripL (l : List Char) : List Char := stripTrail (l.dropWhile Char.isWhitespace)

/-- Python `s.strip()`. -/
def pyStrip (s : String) : String := String.mk (pyStripL s.data)

/-- Python `s.lower()` (character-wise lowering, faithful on the ASCII data the
program compares against `"not specified"`). -/
def pyLower (s : String) : String := String.mk (s.data.map Char.toLower)

/-- Python `raw.split(";")`. -/
def pySplitSemi (s : String) : List String := (splitChar ';' s.data).map String.mk

/-- Python `"; ".join(pieces)` at the character-list level. -/
def joinSemiSpaceL : List (List Char) → List Char
  | [] => []
  | [x] => x
  | x :: y :: rest => x ++ ';' :: ' ' :: joinSemiSpaceL (y :: rest)

/-- Python `"; ".join(pieces)`. -/
def pyJoinSemiSpace (ss : List String) : String :=
  String.mk (joinSemiSpaceL (ss.map String.data))

/-- A JSON-object record with string values: the parsed model response handled
by `process_pdf`, and likewise a row of the Excel dataset.  Python `dict`s are
insertion-ordered, hence an ordered association list. -/
abbrev Rec := List (String × String)

/-- A category-to-labels mapping: the shape of both `enum_methods` (the loaded
vocabulary, line 14-23) and `normalize_map` (the live vocabulary, line 54). -/
abbrev Vocab := List (String × List String)

/-- Python `record.get(key, "Not specified")` (line 111). -/
def recordGet (rec : Rec) (key : String) : String :=
  match rec.find? (fun p => p.1 == key) with
  | some p => p.2
  | none => "Not specified"

/-- Python `record[key] = v` on a `dict`: update the entry in place when the
key exists, otherwise append it in insertion order. -/
def recordSet (rec : Rec) (key v : String) : Rec :=
  if rec.any (fun p => p.1 == key) then
    rec.map (fun p => if p.1 == key then (p.1, v) else p)
  else rec ++ [(key, v)]

/-- Python `m[key]` on a category mapping, returning `[]` for an absent key
(the program only ever indexes with keys of the mapping itself, so the default
branch is never reached in a run). -/
def vocabGet (v : Vocab) (key : String) : List String :=
  match v.find? (fun p => p.1 == key) with
  | some p => p.2
  | none => []

/-- Replacement of the label set stored at `key` (our state-passing rendering
of the in-place `normalize_map[key].add(...)` mutations of one loop
iteration); keys are never added or removed. -/
def vocabSet (v : Vocab) (key : String) (labels : List String) : Vocab :=
  v.map (fun p => if p.1 == key then (p.1, labels) else p)

/-- Python `set.add` on the list model of a set: append the element when it is
not already present (idempotent, like `set.add`). -/
def insertSet (l : List String) (x : String) : List String :=
  if x ∈ l then l else l ++ [x]

/-- Python `set(v)` applied to a list `v` (line 54): fold idempotent
insertion. -/
def setOfList (l : List String) : List String := l.foldl insertSet []

/-- Line 54: `normalize_map = {k: set(v) for k, v in enum_methods.items()}`. -/
def vocabInit (e : Vocab) : Vocab := e.map (fun p => (p.1, setOfList p.2))

/-- The literal initial dictionary of lines 18-23, used when the methods file
does not exist. -/
def defaultEnumMethods : Vocab :=
  [("AnalyzedFields", []), ("TermPreprocessing", []),
   ("Clustering", []), ("ClusterAnalysis", [])]

/-- Lines 13-23: load `enum_methods` from `topic_methods.json` when the file
exists (its parsed contents are `some m`), otherwise fall back to the default
mapping carrying the four known category keys with empty label lists. -/
def loadMethods (fileContents : Option Vocab) : Vocab :=
  match fileContents with
  | some m => m
  | none => defaultEnumMethods

/-- The four known category keys, in the order of lines 18-23. -/
def knownCategories : List String := defaultEnumMethods.map Prod.fst

/-- Line 112: `items = [i.strip() for i in raw.split(";") if i.strip()]`. -/
def splitItems (raw : String) : List String :=
  ((pySplitSemi raw).map pyStrip).filter (fun s => !(s == ""))

/-- The per-item loop of lines 113-120: build the `normalized` output list and
thread the category's live label set (`normalize_map[key]`), adding an item to
the live set exactly when the item is not a case-variant of "not specified"
and is not in the loaded list `enum_methods[key]`. -/
def normalizeItems (enumList : List String) : List String → List String → List String × List String
  | [], live => ([], live)
  | it :: rest, live =>
    if pyLower it = "not specified" then
      let r := normalizeItems enumList rest live
      ("Not specified" :: r.1, r.2)
    else
      let live1 := if it ∈ enumList then live else insertSet live it
      let r := normalizeItems enumList rest live1
      (it :: r.1, r.2)

/-- One category field of the loop body (lines 111-121): split the raw text,
process the items, and store the rejoined text (or "Not specified" when no
item remains), returning the updated live label set. -/
def normalizeField (enumList live : List String) (raw : String) : String × List String :=
  let r := normalizeItems enumList (splitItems raw) live
  ((if r.1.isEmpty then "Not specified" else pyJoinSemiSpace r.1), r.2)

/-- One iteration of `for key in enum_methods.keys()` (lines 110-121), acting
on the pair (record, normalize_map). -/
def normalizeStep (e : Vocab) (st : Rec × Vocab) (key : String) : Rec × Vocab :=
  let raw := recordGet st.1 key
  let r := normalizeField (vocabGet e key) (vocabGet st.2 key) raw
  (recordSet st.1 key r.1, vocabSet st.2 key r.2)

/-- The whole normalization loop of `process_pdf` (lines 110-121): rewrite
each category field of the parsed record and update `normalize_map`. -/
def normalizeRecord (e : Vocab) (vmap : Vocab) (rec : Rec) : Rec × Vocab :=
  (e.map Prod.fst).foldl (normalizeStep e) (rec, vmap)

/-- The shared `normalize_map` after a run's successive `process_pdf`
normalizations: fold the loop over the parsed records of a batch. -/
def runNormalize (e : Vocab) (vmap : Vocab) (recs : List Rec) : Vocab :=
  recs.foldl (fun v rec => (normalizeRecord e v rec).2) vmap

/-- The per-item output mapping of lines 114-118: a case-variant of
"not specified" becomes the literal sentinel, anything else is kept
verbatim. -/
def itemLabel (it : String) : String :=
  if pyLower it = "not specified" then "Not specified" else it

/-- The pure field-level output of the loop body: what lines 111-121 store
into `record[key]`, as a function of the raw text alone (the stored text does
not depend on the vocabulary). -/
def canonicalField (raw : String) : String :=
  if (splitItems raw).isEmpty then "Not specified"
  else pyJoinSemiSpace ((splitItems raw).map itemLabel)

/-- Insertion into a lexicographically sorted list of strings. -/
def insertSorted (x : String) : List String → List String
  | [] => [x]
  | y :: ys => if x ≤ y then x :: y :: ys else y :: insertSorted x ys

/-- Python `sorted(v)` on a list of strings. -/
def sortStrings (l : List String) : List String := l.foldr insertSorted []

/-- Lines 125-127 (`save_methods`): the mapping written back to the methods
file, each category's live set sorted. -/
def save_methods (vmap : Vocab) : Vocab := vmap.map (fun p => (p.1, sortStrings p.2))

/-- The SourceFile identifier of a dataset row.  Rows of the existing Excel
file are assumed to carry the column (a frame without it raises in pandas,
the spec's fatal `DatasetMergeError`, outside the claims handled here), and
every new record gets it set at line 150. -/
def rowSource (r : Rec) : String :=
  match r.find? (fun p => p.1 == "SourceFile") with
  | some p => p.2
  | none => ""

/-- Lines 155-170 of `main`: when the existing frame is non-empty, drop its
rows whose SourceFile occurs among the new records' SourceFile values, then
concatenate the remainder with the new records.  When the existing frame is
non-empty and the new-records frame is empty, evaluating
`df_new["SourceFile"]` raises a pandas `KeyError` (the empty frame has no
columns), modelled as an error value. -/
def mergeDatasets (existing newRecords : List Rec) : Except String (List Rec) :=
  if existing.isEmpty then Except.ok (existing ++ newRecords)
  else if newRecords.isEmpty then Except.error "KeyError: SourceFile"
  else
    Except.ok
      ((existing.filter fun r => !((newRecords.map rowSource).contains (rowSource r))) ++ newRecords)

/-- Lines 146-153 of `main`: the per-document loop.  Each document is given by
its file name and the outcome of producing its record (`process_pdf` together
with JSON parsing is the external extraction collaborator, so the outcome is
supplied as data).  A success is appended to `new_records` with its SourceFile
set; a failure is reported per document and excluded from the batch. -/
def processBatch (docs : List (String × Except String Rec)) : List Rec × List (String × String) :=
  docs.foldl
    (fun acc d =>
      match d.2 with
      | Except.ok rec => (acc.1 ++ [recordSet rec "SourceFile" d.1], acc.2)
      | Except.error e => (acc.1, acc.2 ++ [(d.1, e)]))
    ([], [])

/-- The guard-free variant of the per-item loop, following the spec's reading
of lines 119-120 for claim C10: every non-sentinel item is inserted into the
live label set unconditionally (no membership test against the loaded
`enum_methods[key]` list). -/
def normalizeItemsU : List String → List String → List String × List String
  | [], live => ([], live)
  | it :: rest, live =>
    if pyLower it = "not specified" then
      let r := normalizeItemsU rest live
      ("Not specified" :: r.1, r.2)
    else
      let r := normalizeItemsU rest (insertSet live it)
      (it :: r.1, r.2)

/-- Guard-free variant of `normalizeField`. -/
def normalizeFieldU (live : List String) (raw : String) : String × List String :=
  let r := normalizeItemsU (splitItems raw) live
  ((if r.1.isEmpty then "Not specified" else pyJoinSemiSpace r.1), r.2)

/-- Guard-free variant of `normalizeStep`. -/
def normalizeStepU (st : Rec × Vocab) (key : String) : Rec × Vocab :=
  let raw := recordGet st.1 key
  let r := normalizeFieldU (vocabGet st.2 key) raw
  (recordSet st.1 key r.1, vocabSet st.2 key r.2)

/-- Guard-free variant of `normalizeRecord` (same iteration order). -/
def normalizeRecordU (e : Vocab) (vmap : Vocab) (rec : Rec) : Rec × Vocab :=
  (e.map Prod.fst).foldl normalizeStepU (rec, vmap)

/-- Guard-free variant of `runNormalize`. -/
def runNormalizeU (e : Vocab) (vmap : Vocab) (recs : List Rec) : Vocab :=
  recs.foldl (fun v rec => (normalizeRecordU e v rec).2) vmap

/-! Basic lemmas about the set and sorting models. -/

theorem mem_insertSet {l : List String} {a x : String} :
    x ∈ insertSet l a ↔ x ∈ l ∨ x = a := by
  by_cases h : a ∈ l
  · simp only [insertSet, if_pos h]
    exact ⟨Or.inl, fun hx => hx.elim id (fun e => e ▸ h)⟩
  · simp [insertSet, if_neg h]

theorem insertSet_eq_of_mem {l : List String} {a : String} (h : a ∈ l) :
    insertSet l a = l := if_pos h

theorem mem_foldl_insertSet {x : String} :
    ∀ (l acc : List String), x ∈ l.foldl insertSet acc ↔ x ∈ acc ∨ x ∈ l
  | [], acc => by simp
  | a :: l, acc => by
    rw [List.foldl_cons, mem_foldl_insertSet l (insertSet acc a), mem_insertSet]
    simp only [List.mem_cons]
    tauto

theorem mem_setOfList {l : List String} {x : String} : x ∈ setOfList l ↔ x ∈ l := by
  rw [setOfList, mem_foldl_insertSet]
  simp

theorem mem_insertSorted {l : List String} {y x : String} :
    x ∈ insertSorted y l ↔ x = y ∨ x ∈ l := by
  induction l with
  | nil => simp [insertSorted]
  | cons a l ih =>
    simp only [insertSorted]
    by_cases h : y ≤ a
    · rw [if_pos h]
      simp
    · rw [if_neg h]
      simp only [List.mem_cons, ih]
      tauto

theorem mem_sortStrings {l : List String} {x : String} : x ∈ sortStrings l ↔ x ∈ l := by
  induction l with
  | nil => simp [sortStrings]
  | cons a l ih =>
    rw [sortStrings, List.foldr_cons, mem_insertSorted]
    rw [sortStrings] at ih
    simp [ih]

/-! Character-level lemmas about the Python string operations. -/

theorem splitChar_ne_nil (c : Char) (l : List Char) : splitChar c l ≠ [] := by
  cases l with
  | nil => simp [splitChar]
  | cons a rest =>
    simp only [splitChar]
    by_cases h : a = c
    · rw [if_pos h]
      simp
    · rw [if_neg h]
      simp

theorem not_mem_of_mem_splitChar {c : Char} :
    ∀ {l : List Char} {p : List Char}, p ∈ splitChar c l → c ∉ p
  | [], p, hp => by
    simp only [splitChar, List.mem_singleton] at hp
    simp [hp]
  | a :: rest, p, hp => by
    simp only [splitChar] at hp
    by_cases h : a = c
    · rw [if_pos h] at hp
      rcases List.mem_cons.mp hp with h1 | h1
      · simp [h1]
      · exact not_mem_of_mem_splitChar h1
    · rw [if_neg h] at hp
      obtain ⟨g, gs, hr⟩ := List.exists_cons_of_ne_nil (splitChar_ne_nil c rest)
      rw [hr] at hp
      simp only [List.headI, List.tail] at hp
      rcases List.mem_cons.mp hp with h1 | h1
      · subst h1
        intro hc
        rcases List.mem_cons.mp hc with h2 | h2
        · exact h h2.symm
        · exact not_mem_of_mem_splitChar (hr ▸ List.mem_cons_self g gs) h2
      · exact not_mem_of_mem_splitChar (hr ▸ List.mem_cons_of_mem g h1)

theorem splitChar_of_not_mem {c : Char} : ∀ {l : List Char}, c ∉ l → splitChar c l = [l]
  | [], _ => rfl
  | a :: rest, h => by
    have ha : ¬ a = c := fun e => h (e ▸ List.mem_cons_self a rest)
    have hr : splitChar c rest = [rest] :=
      splitChar_of_not_mem (fun hc => h (List.mem_cons_of_mem a hc))
    simp [splitChar, if_neg ha, hr]

theorem splitChar_append_cons {c : Char} (t : List Char) :
    ∀ {a : List Char}, c ∉ a → splitChar c (a ++ c :: t) = a :: splitChar c t
  | [], _ => by simp [splitChar]
  | x :: a', h => by
    have hx : ¬ x = c := fun e => h (e ▸ List.mem_cons_self x a')
    have hr : splitChar c (a' ++ c :: t) = a' :: splitChar c t :=
      splitChar_append_cons t (fun hc => h (List.mem_cons_of_mem x hc))
    simp [splitChar, if_neg hx, hr]

theorem splitChar_joinSemiSpaceL :
    ∀ {ds : List (List Char)} {d : List Char}, ';' ∉ d → (∀ p ∈ ds, ';' ∉ p) →
      splitChar ';' (joinSemiSpaceL (d :: ds)) = d :: ds.map (fun p => ' ' :: p)
  | [], d, hd, _ => by
    simp [joinSemiSpaceL, splitChar_of_not_mem hd]
  | e :: ds', d, hd, hds => by
    have he : ';' ∉ e := hds e (List.mem_cons_self e ds')
    have hds' : ∀ p ∈ ds', ';' ∉ p := fun p hp => hds p (List.mem_cons_of_mem e hp)
    have ih : splitChar ';' (joinSemiSpaceL (e :: ds')) = e :: ds'.map (fun p => ' ' :: p) :=
      splitChar_joinSemiSpaceL he hds'
    have hj : joinSemiSpaceL (d :: e :: ds') = d ++ ';' :: ' ' :: joinSemiSpaceL (e :: ds') := rfl
    rw [hj, splitChar_append_cons _ hd]
    have hsp : splitChar ';' (' ' :: joinSemiSpaceL (e :: ds')) =
        (' ' :: e) :: ds'.map (fun p => ' ' :: p) := by
      simp [splitChar, ih]
    rw [hsp]
    simp

theorem mem_of_mem_stripTrail : ∀ {l : List Char} {x : Char}, x ∈ stripTrail l → x ∈ l
  | [], x, h => by simp [stripTrail] at h
  | a :: rest, x, h => by
    simp only [stripTrail] at h
    rcases he : stripTrail rest with _ | ⟨b, t⟩
    · rw [he] at h
      by_cases ha : a.isWhitespace
      · rw [if_pos ha] at h
        simp at h
      · rw [if_neg ha] at h
        simp only [List.mem_singleton] at h
        simp [h]
    · rw [he] at h
      rcases List.mem_cons.mp h with h1 | h1
      · simp [h1]
      · exact List.mem_cons_of_mem a (mem_of_mem_stripTrail (he ▸ h1))

theorem stripTrail_cons (a : Char) (rest : List Char) :
    stripTrail (a :: rest) =
      match stripTrail rest with
      | [] => if a.isWhitespace then [] else [a]
      | b :: t => a :: b :: t := rfl

theorem stripTrail_idem : ∀ (l : List Char), stripTrail (stripTrail l) = stripTrail l
  | [] => rfl
  | a :: rest => by
    rcases he : stripTrail rest with _ | ⟨b, t⟩
    · have h1 : stripTrail (a :: rest) = if a.isWhitespace then [] else [a] := by
        rw [stripTrail_cons, he]
      by_cases ha : a.isWhitespace
      · rw [h1, if_pos ha]
        rfl
      · rw [h1, if_neg ha]
        show (if a.isWhitespace then [] else [a]) = [a]
        exact if_neg ha
    · have h1 : stripTrail (a :: rest) = a :: b :: t := by
        rw [stripTrail_cons, he]
      have hbt : stripTrail (b :: t) = b :: t := by
        have h2 := stripTrail_idem rest
        rw [he] at h2
        exact h2
      rw [h1, stripTrail_cons, hbt]

theorem stripTrail_cons_head (a : Char) (rest : List Char) :
    stripTrail (a :: rest) = [] ∨ ∃ t, stripTrail (a :: rest) = a :: t := by
  simp only [stripTrail]
  rcases stripTrail rest with _ | ⟨b, t⟩
  · by_cases ha : a.isWhitespace
    · rw [if_pos ha]
      exact Or.inl rfl
    · rw [if_neg ha]
      exact Or.inr ⟨[], rfl⟩
  · exact Or.inr ⟨b :: t, rfl⟩

theorem dropWhile_head_false {p : Char → Bool} :
    ∀ {l : List Char} {b : Char} {t : List Char}, l.dropWhile p = b :: t → p b = false
  | [], b, t, h => by simp at h
  | a :: rest, b, t, h => by
    by_cases ha : p a
    · rw [List.dropWhile_cons_of_pos ha] at h
      exact dropWhile_head_false h
    · rw [List.dropWhile_cons_of_neg ha] at h
      cases h
      exact Bool.of_not_eq_true ha

theorem dropWhile_stripTrail_dropWhile (l : List Char) :
    (stripTrail (l.dropWhile Char.isWhitespace)).dropWhile Char.isWhitespace =
      stripTrail (l.dropWhile Char.isWhitespace) := by
  rcases hm : l.dropWhile Char.isWhitespace with _ | ⟨b, t⟩
  · rfl
  · have hb : b.isWhitespace = false := dropWhile_head_false hm
    rcases stripTrail_cons_head b t with h | ⟨t', ht'⟩
    · rw [h]
      rfl
    · rw [ht', List.dropWhile_cons_of_neg (by simp [hb])]

theorem pyStripL_idem (l : List Char) : pyStripL (pyStripL l) = pyStripL l := by
  unfold pyStripL
  rw [dropWhile_stripTrail_dropWhile, stripTrail_idem]

theorem pyStripL_cons_space (l : List Char) : pyStripL (' ' :: l) = pyStripL l := by
  unfold pyStripL
  rw [List.dropWhile_cons_of_pos (by decide)]

theorem mem_of_mem_pyStripL {l : List Char} {x : Char} (h : x ∈ pyStripL l) : x ∈ l := by
  have h1 : x ∈ l.dropWhile Char.isWhitespace := mem_of_mem_stripTrail h
  exact (List.dropWhile_sublist Char.isWhitespace).subset h1

/-! String-level lemmas. -/

theorem pyStrip_idem (s : String) : pyStrip (pyStrip s) = pyStrip s :=
  congrArg String.mk (pyStripL_idem s.data)

theorem mem_splitItems {raw x : String} (h : x ∈ splitItems raw) :
    x ≠ "" ∧ pyStrip x = x ∧ ';' ∉ x.data := by
  unfold splitItems at h
  obtain ⟨h2, h3⟩ := List.mem_filter.mp h
  obtain ⟨y, hy, rfl⟩ := List.mem_map.mp h2
  obtain ⟨d, hd, rfl⟩ := List.mem_map.mp (by
    unfold pySplitSemi at hy
    exact hy)
  refine ⟨?_, pyStrip_idem _, ?_⟩
  · intro he
    rw [he] at h3
    simp at h3
  · intro hc
    exact not_mem_of_mem_splitChar hd (mem_of_mem_pyStripL hc)

theorem splitItems_single {s : String} (h1 : pyStrip s = s) (h2 : s ≠ "")
    (h3 : ';' ∉ s.data) : splitItems s = [s] := by
  have e1 : pySplitSemi s = [s] := by
    unfold pySplitSemi
    rw [splitChar_of_not_mem h3]
    rfl
  unfold splitItems
  rw [e1]
  simp only [List.map_cons, List.map_nil, h1]
  simp [List.filter_cons, h2]

theorem mapStripSpace :
    ∀ (rest : List String), (∀ x ∈ rest, pyStrip x = x) →
      List.map pyStrip (List.map String.mk
        (List.map (fun p => ' ' :: p) (List.map String.data rest))) = rest
  | [], _ => rfl
  | y :: ys, h => by
    simp only [List.map_cons]
    rw [mapStripSpace ys (fun x hx => h x (List.mem_cons_of_mem y hx))]
    congr 1
    have h1 : pyStrip (String.mk (' ' :: y.data)) = String.mk (pyStripL y.data) :=
      congrArg String.mk (pyStripL_cons_space y.data)
    rw [h1]
    exact h y (List.mem_cons_self y ys)

theorem splitItems_join {out : List String} (hne : out ≠ [])
    (hprops : ∀ x ∈ out, x ≠ "" ∧ pyStrip x = x ∧ ';' ∉ x.data) :
    splitItems (pyJoinSemiSpace out) = out := by
  obtain ⟨d, rest, rfl⟩ := List.exists_cons_of_ne_nil hne
  have hd := hprops d (List.mem_cons_self d rest)
  have hsplit : splitChar ';' (joinSemiSpaceL (List.map String.data (d :: rest))) =
      d.data :: List.map (fun p => ' ' :: p) (List.map String.data rest) := by
    rw [List.map_cons]
    exact splitChar_joinSemiSpaceL hd.2.2 (by
      intro p hp
      obtain ⟨y, hy, rfl⟩ := List.mem_map.mp hp
      exact (hprops y (List.mem_cons_of_mem d hy)).2.2)
  unfold splitItems pySplitSemi
  rw [show (pyJoinSemiSpace (d :: rest)).data =
    joinSemiSpaceL (List.map String.data (d :: rest)) from rfl, hsplit]
  simp only [List.map_cons]
  rw [mapStripSpace rest (fun x hx => (hprops x (List.mem_cons_of_mem d hx)).2.1)]
  rw [show String.mk d.data = d from rfl, hd.2.1]
  rw [List.filter_eq_self.mpr]
  intro a ha
  rcases List.mem_cons.mp ha with rfl | h1
  · simp [hd.1]
  · simp [(hprops a (List.mem_cons_of_mem d h1)).1]

theorem itemLabel_of_sentinel {x : String} (h : pyLower x = "not specified") :
    itemLabel x = "Not specified" := by
  simp only [itemLabel, if_pos h]

theorem itemLabel_of_not_sentinel {x : String} (h : ¬ pyLower x = "not specified") :
    itemLabel x = x := by
  simp only [itemLabel, if_neg h]

theorem itemLabel_idem (x : String) : itemLabel (itemLabel x) = itemLabel x := by
  by_cases h : pyLower x = "not specified"
  · rw [itemLabel_of_sentinel h]
    decide
  · rw [itemLabel_of_not_sentinel h]
    exact itemLabel_of_not_sentinel h

theorem itemLabel_props {x : String} (hx : x ≠ "" ∧ pyStrip x = x ∧ ';' ∉ x.data) :
    itemLabel x ≠ "" ∧ pyStrip (itemLabel x) = itemLabel x ∧ ';' ∉ (itemLabel x).data := by
  by_cases h : pyLower x = "not specified"
  · rw [itemLabel_of_sentinel h]
    refine ⟨by decide, by decide, by decide⟩
  · rw [itemLabel_of_not_sentinel h]
    exact hx

/-! Lemmas about the per-item loop. -/

theorem normalizeItems_cons_pos {e : List String} {it : String} {rest live : List String}
    (h : pyLower it = "not specified") :
    normalizeItems e (it :: rest) live =
      ("Not specified" :: (normalizeItems e rest live).1, (normalizeItems e rest live).2) := by
  simp only [normalizeItems, if_pos h]

theorem normalizeItems_cons_neg {e : List String} {it : String} {rest live : List String}
    (h : ¬ pyLower it = "not specified") :
    normalizeItems e (it :: rest) live =
      (it :: (normalizeItems e rest (if it ∈ e then live else insertSet live it)).1,
       (normalizeItems e rest (if it ∈ e then live else insertSet live it)).2) := by
  simp only [normalizeItems, if_neg h]

theorem normalizeItemsU_cons_pos {it : String} {rest live : List String}
    (h : pyLower it = "not specified") :
    normalizeItemsU (it :: rest) live =
      ("Not specified" :: (normalizeItemsU rest live).1, (normalizeItemsU rest live).2) := by
  simp only [normalizeItemsU, if_pos h]

theorem normalizeItemsU_cons_neg {it : String} {rest live : List String}
    (h : ¬ pyLower it = "not specified") :
    normalizeItemsU (it :: rest) live =
      (it :: (normalizeItemsU rest (insertSet live it)).1,
       (normalizeItemsU rest (insertSet live it)).2) := by
  simp only [normalizeItemsU, if_neg h]

theorem normalizeItems_fst (e : List String) :
    ∀ (items live : List String), (normalizeItems e items live).1 = items.map itemLabel
  | [], _ => rfl
  | it :: rest, live => by
    by_cases h : pyLower it = "not specified"
    · rw [normalizeItems_cons_pos h]
      simp only [List.map_cons]
      rw [normalizeItems_fst e rest live, itemLabel_of_sentinel h]
    · rw [normalizeItems_cons_neg h]
      simp only [List.map_cons]
      rw [normalizeItems_fst e rest _, itemLabel_of_not_sentinel h]

theorem mem_normalizeItems_snd (e : List String) :
    ∀ (items live : List String) (x : String),
      x ∈ (normalizeItems e items live).2 ↔
        x ∈ live ∨ (x ∈ items ∧ pyLower x ≠ "not specified" ∧ x ∉ e)
  | [], live, x => by simp [normalizeItems]
  | it :: rest, live, x => by
    by_cases h : pyLower it = "not specified"
    · rw [normalizeItems_cons_pos h]
      show x ∈ (normalizeItems e rest live).2 ↔ _
      rw [mem_normalizeItems_snd e rest live x]
      simp only [List.mem_cons]
      have hx : x = it → pyLower x = "not specified" := fun e' => e' ▸ h
      tauto
    · rw [normalizeItems_cons_neg h]
      show x ∈ (normalizeItems e rest (if it ∈ e then live else insertSet live it)).2 ↔ _
      rw [mem_normalizeItems_snd e rest _ x]
      by_cases hm : it ∈ e
      · rw [if_pos hm]
        simp only [List.mem_cons]
        have hx : x = it → x ∈ e := fun e' => e' ▸ hm
        tauto
      · rw [if_neg hm]
        simp only [mem_insertSet, List.mem_cons]
        have hx1 : x = it → ¬ pyLower x = "not specified" := fun e' => e' ▸ h
        have hx2 : x = it → x ∉ e := fun e' => e' ▸ hm
        tauto

theorem mem_normalizeItems_snd_of_superset {e items live : List String} {x : String}
    (hsup : ∀ y ∈ e, y ∈ live) :
    x ∈ (normalizeItems e items live).2 ↔
      x ∈ live ∨ (x ∈ items ∧ pyLower x ≠ "not specified") := by
  rw [mem_normalizeItems_snd]
  constructor
  · rintro (h | ⟨h1, h2, _⟩)
    · exact Or.inl h
    · exact Or.inr ⟨h1, h2⟩
  · rintro (h | ⟨h1, h2⟩)
    · exact Or.inl h
    · by_cases hm : x ∈ e
      · exact Or.inl (hsup x hm)
      · exact Or.inr ⟨h1, h2, hm⟩

theorem normalizeItems_guard_equiv (e : List String) :
    ∀ (items live : List String), (∀ y ∈ e, y ∈ live) →
      normalizeItems e items live = normalizeItemsU items live
  | [], _, _ => rfl
  | it :: rest, live, hsup => by
    by_cases h : pyLower it = "not specified"
    · rw [normalizeItems_cons_pos h, normalizeItemsU_cons_pos h,
        normalizeItems_guard_equiv e rest live hsup]
    · rw [normalizeItems_cons_neg h, normalizeItemsU_cons_neg h]
      have hlive : (if it ∈ e then live else insertSet live it) = insertSet live it := by
        by_cases hm : it ∈ e
        · rw [if_pos hm, insertSet_eq_of_mem (hsup it hm)]
        · rw [if_neg hm]
      rw [hlive, normalizeItems_guard_equiv e rest (insertSet live it)
        (fun y hy => mem_insertSet.mpr (Or.inl (hsup y hy)))]

/-! Lemmas about one field's output. -/

theorem normalizeField_fst (e live : List String) (raw : String) :
    (normalizeField e live raw).1 = canonicalField raw := by
  show (if (normalizeItems e (splitItems raw) live).1.isEmpty then "Not specified"
    else pyJoinSemiSpace (normalizeItems e (splitItems raw) live).1) = canonicalField raw
  rw [normalizeItems_fst, canonicalField]
  cases hs : splitItems raw with
  | nil => simp
  | cons a l => simp

theorem normalizeField_snd (e live : List String) (raw : String) :
    (normalizeField e live raw).2 = (normalizeItems e (splitItems raw) live).2 := rfl

theorem canonicalField_idem (raw : String) :
    canonicalField (canonicalField raw) = canonicalField raw := by
  by_cases hs : splitItems raw = []
  · have h : canonicalField raw = "Not specified" := by
      unfold canonicalField
      rw [hs]
      rfl
    rw [h]
    decide
  · have h : canonicalField raw = pyJoinSemiSpace ((splitItems raw).map itemLabel) := by
      unfold canonicalField
      cases hc : splitItems raw with
      | nil => exact absurd hc hs
      | cons a l => simp
    rw [h]
    have hout : ∀ x ∈ (splitItems raw).map itemLabel,
        x ≠ "" ∧ pyStrip x = x ∧ ';' ∉ x.data := by
      intro x hx
      obtain ⟨y, hy, rfl⟩ := List.mem_map.mp hx
      exact itemLabel_props (mem_splitItems hy)
    have houtne : (splitItems raw).map itemLabel ≠ [] := by
      intro hc
      exact hs (List.map_eq_nil_iff.mp hc)
    have hsj := splitItems_join houtne hout
    unfold canonicalField
    rw [hsj]
    have hmap : ((splitItems raw).map itemLabel).map itemLabel =
        (splitItems raw).map itemLabel := by
      rw [List.map_map]
      exact List.map_congr_left (fun a _ => itemLabel_idem a)
    rw [hmap]
    cases hc : (splitItems raw).map itemLabel with
    | nil => exact absurd hc houtne
    | cons a l => simp

/-! Association-list lemmas, generic in the value type (used both for records
with string values and for vocabularies with label-list values). -/

theorem find?_pair_cons_pos {β : Type} {k : String} (q : String × β)
    (r : List (String × β)) (h : (q.1 == k) = true) :
    List.find? (fun p => p.1 == k) (q :: r) = some q := by
  simp only [List.find?]
  simp [h]

theorem find?_pair_cons_neg {β : Type} {k : String} (q : String × β)
    (r : List (String × β)) (h : ¬ (q.1 == k) = true) :
    List.find? (fun p => p.1 == k) (q :: r) = List.find? (fun p => p.1 == k) r := by
  have h' : (q.1 == k) = false := by
    revert h
    cases q.1 == k <;> simp
  simp only [List.find?]
  simp [h']

theorem find?_map_upd_self {β : Type} {k : String} {v : β} :
    ∀ {r : List (String × β)}, r.any (fun p => p.1 == k) = true →
      (r.map (fun p => if p.1 == k then (p.1, v) else p)).find? (fun p => p.1 == k) =
        some (k, v)
  | [], h => by simp at h
  | p :: r', h => by
    by_cases hp : p.1 == k
    · simp only [List.map_cons, if_pos hp]
      rw [find?_pair_cons_pos ((p.1, v) : String × β) _ hp]
      have he : p.1 = k := by simpa using hp
      rw [he]
    · simp only [List.map_cons, if_neg hp]
      rw [find?_pair_cons_neg _ _ hp]
      have h' : r'.any (fun p => p.1 == k) = true := by
        rcases List.any_eq_true.mp h with ⟨x, hx, hpx⟩
        rcases List.mem_cons.mp hx with rfl | hx'
        · exact absurd hpx hp
        · exact List.any_eq_true.mpr ⟨x, hx', hpx⟩
      exact find?_map_upd_self h'

theorem find?_map_upd_ne {β : Type} {k k' : String} {v : β} (hne : ¬ k' = k) :
    ∀ (r : List (String × β)),
      (r.map (fun p => if p.1 == k then (p.1, v) else p)).find? (fun p => p.1 == k') =
        r.find? (fun p => p.1 == k')
  | [] => rfl
  | p :: r' => by
    by_cases hp : p.1 == k
    · have hp' : p.1 = k := by simpa using hp
      have hk' : ¬ (p.1 == k') = true := by
        simp only [beq_iff_eq, hp']
        exact fun h => hne h.symm
      simp only [List.map_cons, if_pos hp]
      rw [find?_pair_cons_neg ((p.1, v) : String × β) _ hk', find?_pair_cons_neg p _ hk',
        find?_map_upd_ne hne r']
    · simp only [List.map_cons, if_neg hp]
      by_cases hq : p.1 == k'
      · rw [find?_pair_cons_pos p _ hq, find?_pair_cons_pos p _ hq]
      · rw [find?_pair_cons_neg p _ hq, find?_pair_cons_neg p _ hq,
          find?_map_upd_ne hne r']

/-! Record access and update. -/

theorem find?_recordSet_self (r : Rec) (k v : String) :
    (recordSet r k v).find? (fun p => p.1 == k) = some (k, v) := by
  unfold recordSet
  by_cases h : r.any (fun p => p.1 == k)
  · rw [if_pos h]
    exact find?_map_upd_self h
  · rw [if_neg h, List.find?_append]
    have hnone : r.find? (fun p => p.1 == k) = none :=
      List.find?_eq_none.mpr (fun x hx hpx => h (List.any_eq_true.mpr ⟨x, hx, hpx⟩))
    rw [hnone]
    rw [find?_pair_cons_pos ((k, v) : String × String) [] (by simp)]
    rfl

theorem find?_recordSet_ne {k k' : String} (hne : ¬ k' = k) (r : Rec) (v : String) :
    (recordSet r k v).find? (fun p => p.1 == k') = r.find? (fun p => p.1 == k') := by
  unfold recordSet
  by_cases h : r.any (fun p => p.1 == k)
  · rw [if_pos h]
    exact find?_map_upd_ne hne r
  · rw [if_neg h, List.find?_append]
    have hone : List.find? (fun p => p.1 == k') [(k, v)] = none := by
      rw [List.find?_eq_none]
      intro x hx
      rw [List.mem_singleton] at hx
      subst hx
      intro hh
      have hh' : k = k' := by simpa using hh
      exact hne hh'.symm
    rw [hone]
    cases r.find? (fun p => p.1 == k') <;> rfl

theorem recordGet_recordSet_self (r : Rec) (k v : String) :
    recordGet (recordSet r k v) k = v := by
  unfold recordGet
  rw [find?_recordSet_self]

theorem recordGet_recordSet_ne {k k' : String} (hne : ¬ k' = k) (r : Rec) (v : String) :
    recordGet (recordSet r k v) k' = recordGet r k' := by
  unfold recordGet
  rw [find?_recordSet_ne hne]

theorem rowSource_recordSet (r : Rec) (n : String) :
    rowSource (recordSet r "SourceFile" n) = n := by
  unfold rowSource
  rw [find?_recordSet_self]

/-! Vocabulary access and update. -/

theorem vocabGet_cons (q : String × List String) (v : Vocab) (key : String) :
    vocabGet (q :: v) key = if q.1 == key then q.2 else vocabGet v key := by
  unfold vocabGet
  by_cases h : q.1 == key
  · rw [find?_pair_cons_pos q v h, if_pos h]
  · rw [find?_pair_cons_neg q v h, if_neg h]

theorem vocabGet_vocabSet_of_mem {v : Vocab} {key : String}
    (h : key ∈ v.map Prod.fst) (nl : List String) :
    vocabGet (vocabSet v key nl) key = nl := by
  have ha : v.any (fun p => p.1 == key) = true := by
    rcases List.mem_map.mp h with ⟨p, hp, rfl⟩
    refine List.any_eq_true.mpr ⟨p, hp, ?_⟩
    simp
  unfold vocabGet vocabSet
  rw [find?_map_upd_self ha]

theorem vocabGet_vocabSet_ne {key k' : String} (hne : ¬ k' = key) (v : Vocab)
    (nl : List String) : vocabGet (vocabSet v key nl) k' = vocabGet v k' := by
  unfold vocabGet vocabSet
  rw [find?_map_upd_ne hne]

theorem vocabGet_vocabSet_self_cases (v : Vocab) (key : String) (nl : List String) :
    vocabGet (vocabSet v key nl) key = nl ∨
      (vocabGet (vocabSet v key nl) key = [] ∧ vocabGet v key = []) := by
  by_cases h : key ∈ v.map Prod.fst
  · exact Or.inl (vocabGet_vocabSet_of_mem h nl)
  · right
    have h1 : v.find? (fun p => p.1 == key) = none := List.find?_eq_none.mpr (by
      intro x hx hpx
      exact h (List.mem_map.mpr ⟨x, hx, by simpa using hpx⟩))
    have h2 : (vocabSet v key nl).find? (fun p => p.1 == key) = none :=
      List.find?_eq_none.mpr (by
        intro x hx hpx
        obtain ⟨p, hp, rfl⟩ := List.mem_map.mp hx
        by_cases hpk : p.1 == key
        · exact h (List.mem_map.mpr ⟨p, hp, by simpa using hpk⟩)
        · rw [if_neg hpk] at hpx
          exact hpk hpx)
    constructor
    · unfold vocabGet
      rw [h2]
    · unfold vocabGet
      rw [h1]

theorem vocabSet_keys (v : Vocab) (key : String) (nl : List String) :
    (vocabSet v key nl).map Prod.fst = v.map Prod.fst := by
  unfold vocabSet
  rw [List.map_map]
  exact List.map_congr_left (fun p _ => by
    by_cases h : p.1 == key <;> simp [Function.comp, h])

theorem vocabGet_vocabInit (e : Vocab) (key : String) :
    vocabGet (vocabInit e) key = setOfList (vocabGet e key) := by
  induction e with
  | nil => rfl
  | cons p e' ih =>
    show vocabGet ((p.1, setOfList p.2) :: vocabInit e') key =
      setOfList (vocabGet (p :: e') key)
    rw [vocabGet_cons, vocabGet_cons]
    by_cases h : p.1 == key
    · rw [if_pos h, if_pos h]
    · rw [if_neg h, if_neg h, ih]

theorem vocabInit_keys (e : Vocab) : (vocabInit e).map Prod.fst = e.map Prod.fst := by
  unfold vocabInit
  rw [List.map_map]
  exact List.map_congr_left (fun p _ => rfl)

theorem mem_vocabGet_vocabInit {e : Vocab} {key x : String} :
    x ∈ vocabGet (vocabInit e) key ↔ x ∈ vocabGet e key := by
  rw [vocabGet_vocabInit, mem_setOfList]

/-! Lemmas about one loop iteration and the whole per-record loop. -/

theorem normalizeStep_fst (e : Vocab) (st : Rec × Vocab) (key : String) :
    (normalizeStep e st key).1 =
      recordSet st.1 key
        (normalizeField (vocabGet e key) (vocabGet st.2 key) (recordGet st.1 key)).1 := rfl

theorem normalizeStep_snd (e : Vocab) (st : Rec × Vocab) (key : String) :
    (normalizeStep e st key).2 =
      vocabSet st.2 key
        (normalizeField (vocabGet e key) (vocabGet st.2 key) (recordGet st.1 key)).2 := rfl

theorem foldSteps_vocab_keys (e : Vocab) :
    ∀ (keys : List String) (st : Rec × Vocab),
      ((keys.foldl (normalizeStep e) st).2).map Prod.fst = st.2.map Prod.fst
  | [], _ => rfl
  | k :: keys, st => by
    rw [List.foldl_cons, foldSteps_vocab_keys e keys _, normalizeStep_snd, vocabSet_keys]

theorem recordGet_foldSteps_not_mem (e : Vocab) :
    ∀ (keys : List String) (st : Rec × Vocab) (key : String), key ∉ keys →
      recordGet (keys.foldl (normalizeStep e) st).1 key = recordGet st.1 key
  | [], _, _, _ => rfl
  | k :: keys, st, key, h => by
    have h1 : ¬ key = k := fun e' => h (e' ▸ List.mem_cons_self k keys)
    have h2 : key ∉ keys := fun hc => h (List.mem_cons_of_mem k hc)
    rw [List.foldl_cons, recordGet_foldSteps_not_mem e keys _ key h2,
      normalizeStep_fst, recordGet_recordSet_ne h1]

theorem recordGet_foldSteps_mem (e : Vocab) :
    ∀ (keys : List String) (st : Rec × Vocab) (key : String), keys.Nodup → key ∈ keys →
      recordGet (keys.foldl (normalizeStep e) st).1 key =
        canonicalField (recordGet st.1 key)
  | [], _, key, _, hm => absurd hm (List.not_mem_nil key)
  | k :: keys, st, key, hnd, hm => by
    rw [List.foldl_cons]
    by_cases he : key = k
    · subst he
      have hnotin : key ∉ keys := (List.nodup_cons.mp hnd).1
      rw [recordGet_foldSteps_not_mem e keys _ key hnotin, normalizeStep_fst,
        recordGet_recordSet_self, normalizeField_fst]
    · have hm' : key ∈ keys := by
        rcases List.mem_cons.mp hm with h1 | h1
        · exact absurd h1 he
        · exact h1
      rw [recordGet_foldSteps_mem e keys _ key (List.nodup_cons.mp hnd).2 hm',
        normalizeStep_fst, recordGet_recordSet_ne he]

theorem mem_vocabGet_foldSteps_mono (e : Vocab) :
    ∀ (keys : List String) (st : Rec × Vocab) (key x : String),
      x ∈ vocabGet st.2 key → x ∈ vocabGet ((keys.foldl (normalizeStep e) st).2) key
  | [], _, _, _, h => h
  | k :: keys, st, key, x, h => by
    rw [List.foldl_cons]
    apply mem_vocabGet_foldSteps_mono e keys _ key x
    by_cases he : key = k
    · subst he
      rw [normalizeStep_snd]
      rcases vocabGet_vocabSet_self_cases st.2 key
        ((normalizeField (vocabGet e key) (vocabGet st.2 key) (recordGet st.1 key)).2) with
        h1 | ⟨_, h2⟩
      · rw [h1, normalizeField_snd]
        exact (mem_normalizeItems_snd _ _ _ _).mpr (Or.inl h)
      · rw [h2] at h
        simp at h
    · rw [normalizeStep_snd, vocabGet_vocabSet_ne he]
      exact h

theorem mem_vocabGet_foldSteps_new (e : Vocab) :
    ∀ (keys : List String) (st : Rec × Vocab) (key x : String),
      x ∈ vocabGet ((keys.foldl (normalizeStep e) st).2) key →
      x ∈ vocabGet st.2 key ∨ (x ≠ "" ∧ pyLower x ≠ "not specified")
  | [], _, _, _, h => Or.inl h
  | k :: keys, st, key, x, h => by
    rw [List.foldl_cons] at h
    rcases mem_vocabGet_foldSteps_new e keys _ key x h with h1 | h1
    · by_cases he : key = k
      · subst he
        rw [normalizeStep_snd] at h1
        rcases vocabGet_vocabSet_self_cases st.2 key
          ((normalizeField (vocabGet e key) (vocabGet st.2 key) (recordGet st.1 key)).2) with
          h2 | ⟨h2, _⟩
        · rw [h2, normalizeField_snd] at h1
          rcases (mem_normalizeItems_snd _ _ _ _).mp h1 with h3 | ⟨h3, h4, _⟩
          · exact Or.inl h3
          · exact Or.inr ⟨(mem_splitItems h3).1, h4⟩
        · rw [h2] at h1
          simp at h1
      · rw [normalizeStep_snd, vocabGet_vocabSet_ne he] at h1
        exact Or.inl h1
    · exact Or.inr h1

theorem mem_vocabGet_foldSteps (e : Vocab) :
    ∀ (keys : List String) (st : Rec × Vocab) (key x : String), keys.Nodup →
      (∀ k ∈ keys, k ∈ st.2.map Prod.fst) →
      (x ∈ vocabGet ((keys.foldl (normalizeStep e) st).2) key ↔
        x ∈ vocabGet st.2 key ∨
          (key ∈ keys ∧ x ∈ splitItems (recordGet st.1 key) ∧
            pyLower x ≠ "not specified" ∧ x ∉ vocabGet e key))
  | [], _, _, _, _, _ => by simp
  | k :: keys, st, key, x, hnd, hkeys => by
    rw [List.foldl_cons]
    have hknd := List.nodup_cons.mp hnd
    have hkeys' : ∀ k' ∈ keys, k' ∈ ((normalizeStep e st k).2).map Prod.fst := by
      intro k' hk'
      rw [normalizeStep_snd, vocabSet_keys]
      exact hkeys k' (List.mem_cons_of_mem k hk')
    rw [mem_vocabGet_foldSteps e keys _ key x hknd.2 hkeys']
    by_cases he : key = k
    · subst he
      have hm : key ∈ st.2.map Prod.fst := hkeys key (List.mem_cons_self key keys)
      rw [normalizeStep_snd, vocabGet_vocabSet_of_mem hm, normalizeField_snd,
        mem_normalizeItems_snd]
      have hnotin : key ∉ keys := hknd.1
      simp only [List.mem_cons]
      constructor
      · rintro ((h1 | ⟨h1, h2, h3⟩) | ⟨h1, _⟩)
        · exact Or.inl h1
        · exact Or.inr ⟨by simp, h1, h2, h3⟩
        · exact absurd h1 hnotin
      · rintro (h1 | ⟨_, h2⟩)
        · exact Or.inl (Or.inl h1)
        · exact Or.inl (Or.inr h2)
    · rw [normalizeStep_snd, vocabGet_vocabSet_ne he, normalizeStep_fst,
        recordGet_recordSet_ne he]
      simp only [List.mem_cons]
      constructor
      · rintro (h1 | ⟨h1, h2⟩)
        · exact Or.inl h1
        · exact Or.inr ⟨Or.inr h1, h2⟩
      · rintro (h1 | ⟨h1 | h1, h2⟩)
        · exact Or.inl h1
        · exact absurd h1 he
        · exact Or.inr ⟨h1, h2⟩

/-! Guard-equivalence of the two per-item loops, lifted through the folds. -/

theorem step_guard_equiv (e : Vocab) (st : Rec × Vocab) (k : String)
    (hsup : ∀ key y, y ∈ vocabGet e key → y ∈ vocabGet st.2 key) :
    normalizeStep e st k = normalizeStepU st k := by
  have hf : normalizeField (vocabGet e k) (vocabGet st.2 k) (recordGet st.1 k) =
      normalizeFieldU (vocabGet st.2 k) (recordGet st.1 k) := by
    unfold normalizeField normalizeFieldU
    rw [normalizeItems_guard_equiv (vocabGet e k) (splitItems (recordGet st.1 k))
      (vocabGet st.2 k) (fun y hy => hsup k y hy)]
  show (recordSet st.1 k (normalizeField (vocabGet e k) (vocabGet st.2 k) (recordGet st.1 k)).1,
      vocabSet st.2 k (normalizeField (vocabGet e k) (vocabGet st.2 k) (recordGet st.1 k)).2) =
    (recordSet st.1 k (normalizeFieldU (vocabGet st.2 k) (recordGet st.1 k)).1,
      vocabSet st.2 k (normalizeFieldU (vocabGet st.2 k) (recordGet st.1 k)).2)
  rw [hf]

theorem step_preserves_sup (e : Vocab) (st : Rec × Vocab) (k : String)
    (hsup : ∀ key y, y ∈ vocabGet e key → y ∈ vocabGet st.2 key) :
    ∀ key y, y ∈ vocabGet e key → y ∈ vocabGet (normalizeStep e st k).2 key := by
  intro key y hy
  by_cases he : key = k
  · subst he
    rw [normalizeStep_snd]
    rcases vocabGet_vocabSet_self_cases st.2 key
      ((normalizeField (vocabGet e key) (vocabGet st.2 key) (recordGet st.1 key)).2) with
      h1 | ⟨h1, h2⟩
    · rw [h1, normalizeField_snd]
      exact (mem_normalizeItems_snd _ _ _ _).mpr (Or.inl (hsup key y hy))
    · rw [h1]
      have hv := hsup key y hy
      rw [h2] at hv
      simp at hv
  · rw [normalizeStep_snd, vocabGet_vocabSet_ne he]
    exact hsup key y hy

theorem foldSteps_guard_equiv (e : Vocab) :
    ∀ (keys : List String) (st : Rec × Vocab),
      (∀ key y, y ∈ vocabGet e key → y ∈ vocabGet st.2 key) →
      keys.foldl (normalizeStep e) st = keys.foldl normalizeStepU st
  | [], _, _ => rfl
  | k :: keys, st, hsup => by
    rw [List.foldl_cons, List.foldl_cons, step_guard_equiv e st k hsup]
    have hsup' : ∀ key y, y ∈ vocabGet e key → y ∈ vocabGet (normalizeStepU st k).2 key := by
      rw [← step_guard_equiv e st k hsup]
      exact step_preserves_sup e st k hsup
    exact foldSteps_guard_equiv e keys _ hsup'

theorem foldSteps_preserves_sup (e : Vocab) :
    ∀ (keys : List String) (st : Rec × Vocab),
      (∀ key y, y ∈ vocabGet e key → y ∈ vocabGet st.2 key) →
      ∀ key y, y ∈ vocabGet e key → y ∈ vocabGet ((keys.foldl (normalizeStep e) st).2) key
  | [], _, hsup => hsup
  | k :: keys, st, hsup => by
    rw [List.foldl_cons]
    exact foldSteps_preserves_sup e keys _ (step_preserves_sup e st k hsup)

theorem runNormalize_guard_equiv (e : Vocab) :
    ∀ (recs : List Rec) (vmap : Vocab),
      (∀ key y, y ∈ vocabGet e key → y ∈ vocabGet vmap key) →
      runNormalize e vmap recs = runNormalizeU e vmap recs
  | [], _, _ => rfl
  | rec :: recs, vmap, hsup => by
    show runNormalize e (normalizeRecord e vmap rec).2 recs =
      runNormalizeU e (normalizeRecordU e vmap rec).2 recs
    have heq : normalizeRecord e vmap rec = normalizeRecordU e vmap rec :=
      foldSteps_guard_equiv e (e.map Prod.fst) (rec, vmap) hsup
    rw [← heq]
    exact runNormalize_guard_equiv e recs _
      (foldSteps_preserves_sup e (e.map Prod.fst) (rec, vmap) hsup)

/-! Run-level vocabulary lemmas. -/

theorem mem_runNormalize_mono (e : Vocab) :
    ∀ (recs : List Rec) (vmap : Vocab) (key x : String),
      x ∈ vocabGet vmap key → x ∈ vocabGet (runNormalize e vmap recs) key
  | [], _, _, _, h => h
  | rec :: recs, vmap, key, x, h => by
    show x ∈ vocabGet (runNormalize e (normalizeRecord e vmap rec).2 recs) key
    exact mem_runNormalize_mono e recs _ key x
      (mem_vocabGet_foldSteps_mono e (e.map Prod.fst) (rec, vmap) key x h)

theorem mem_runNormalize_new (e : Vocab) :
    ∀ (recs : List Rec) (vmap : Vocab) (key x : String),
      x ∈ vocabGet (runNormalize e vmap recs) key →
      x ∈ vocabGet vmap key ∨ (x ≠ "" ∧ pyLower x ≠ "not specified")
  | [], _, _, _, h => Or.inl h
  | rec :: recs, vmap, key, x, h => by
    rcases mem_runNormalize_new e recs ((normalizeRecord e vmap rec).2) key x h with h1 | h1
    · exact mem_vocabGet_foldSteps_new e (e.map Prod.fst) (rec, vmap) key x h1
    · exact Or.inr h1

theorem runNormalize_vocab_keys (e : Vocab) :
    ∀ (recs : List Rec) (vmap : Vocab),
      (runNormalize e vmap recs).map Prod.fst = vmap.map Prod.fst
  | [], _ => rfl
  | rec :: recs, vmap => by
    show (runNormalize e (normalizeRecord e vmap rec).2 recs).map Prod.fst = _
    rw [runNormalize_vocab_keys e recs _]
    exact foldSteps_vocab_keys e (e.map Prod.fst) (rec, vmap)

theorem mem_runNormalize_iff (e : Vocab) (hnd : (e.map Prod.fst).Nodup) :
    ∀ (recs : List Rec) (vmap : Vocab), vmap.map Prod.fst = e.map Prod.fst →
      ∀ (key x : String),
        x ∈ vocabGet (runNormalize e vmap recs) key ↔
          x ∈ vocabGet vmap key ∨
            (key ∈ e.map Prod.fst ∧ (∃ rec ∈ recs, x ∈ splitItems (recordGet rec key)) ∧
              pyLower x ≠ "not specified" ∧ x ∉ vocabGet e key)
  | [], vmap, _, key, x => by
    show x ∈ vocabGet vmap key ↔ _
    simp
  | rec :: recs, vmap, hk, key, x => by
    show x ∈ vocabGet (runNormalize e (normalizeRecord e vmap rec).2 recs) key ↔ _
    have hk' : ((normalizeRecord e vmap rec).2).map Prod.fst = e.map Prod.fst := by
      rw [show (normalizeRecord e vmap rec).2 =
        ((e.map Prod.fst).foldl (normalizeStep e) (rec, vmap)).2 from rfl,
        foldSteps_vocab_keys]
      exact hk
    rw [mem_runNormalize_iff e hnd recs _ hk' key x]
    have hperrec := mem_vocabGet_foldSteps e (e.map Prod.fst) (rec, vmap) key x hnd
      (by
        intro k hkk
        rw [hk]
        exact hkk)
    rw [show (normalizeRecord e vmap rec).2 =
      ((e.map Prod.fst).foldl (normalizeStep e) (rec, vmap)).2 from rfl, hperrec]
    constructor
    · rintro ((h1 | ⟨h1, h2, h3⟩) | ⟨h1, ⟨r, hr, h2⟩, h3⟩)
      · exact Or.inl h1
      · exact Or.inr ⟨h1, ⟨rec, List.mem_cons_self rec recs, h2⟩, h3⟩
      · exact Or.inr ⟨h1, ⟨r, List.mem_cons_of_mem rec hr, h2⟩, h3⟩
    · rintro (h1 | ⟨h1, ⟨r, hr, h2⟩, h3⟩)
      · exact Or.inl (Or.inl h1)
      · rcases List.mem_cons.mp hr with rfl | hr'
        · exact Or.inl (Or.inr ⟨h1, h2, h3⟩)
        · exact Or.inr ⟨h1, ⟨r, hr', h2⟩, h3⟩

theorem vocabGet_save_methods (vmap : Vocab) (key : String) :
    vocabGet (save_methods vmap) key = sortStrings (vocabGet vmap key) := by
  induction vmap with
  | nil => rfl
  | cons p v ih =>
    show vocabGet ((p.1, sortStrings p.2) :: save_methods v) key = _
    rw [vocabGet_cons, vocabGet_cons]
    by_cases h : p.1 == key
    · rw [if_pos h, if_pos h]
    · rw [if_neg h, if_neg h, ih]

/-! Frame lemmas: the loop touches only the category keys. -/

theorem filter_notin_recordSet {S : List String} {k : String} (hk : k ∈ S)
    (r : Rec) (v : String) :
    (recordSet r k v).filter (fun p => !(S.contains p.1)) =
      r.filter (fun p => !(S.contains p.1)) := by
  have hkc : S.contains k = true := by simpa using hk
  unfold recordSet
  by_cases h : r.any (fun p => p.1 == k)
  · rw [if_pos h, List.filter_map]
    have h1 : r.filter ((fun p => !(S.contains p.1)) ∘
        (fun p => if p.1 == k then (p.1, v) else p)) =
        r.filter (fun p => !(S.contains p.1)) := by
      apply List.filter_congr
      intro a _
      by_cases ha : a.1 == k <;> simp [Function.comp, ha]
    rw [h1]
    have h2 : ∀ a ∈ r.filter (fun p => !(S.contains p.1)),
        (if a.1 == k then ((a.1, v) : String × String) else a) = a := by
      intro a ha
      have hcond := (List.mem_filter.mp ha).2
      have hne : ¬ (a.1 == k) = true := by
        intro hbeq
        have ha1 : a.1 = k := by simpa using hbeq
        rw [ha1, hkc] at hcond
        simp at hcond
      rw [if_neg hne]
    rw [List.map_congr_left h2]
    simp
  · rw [if_neg h, List.filter_append]
    have h3 : List.filter (fun p => !(S.contains p.1)) [((k, v) : String × String)] = [] := by
      simp [List.filter_cons, hkc, hk]
    rw [h3, List.append_nil]

theorem filter_notin_foldSteps (e : Vocab) {S : List String} :
    ∀ (keys : List String) (st : Rec × Vocab), (∀ k ∈ keys, k ∈ S) →
      ((keys.foldl (normalizeStep e) st).1).filter (fun p => !(S.contains p.1)) =
        st.1.filter (fun p => !(S.contains p.1))
  | [], _, _ => rfl
  | k :: keys, st, hks => by
    rw [List.foldl_cons,
      filter_notin_foldSteps e keys _ (fun k' hk' => hks k' (List.mem_cons_of_mem k hk')),
      normalizeStep_fst]
    exact filter_notin_recordSet (hks k (List.mem_cons_self k keys)) _ _

/-! Closed form of the per-document batch loop. -/

theorem processBatch_foldl_eq :
    ∀ (docs : List (String × Except String Rec)) (acc : List Rec × List (String × String)),
      docs.foldl
        (fun acc d =>
          match d.2 with
          | Except.ok rec => (acc.1 ++ [recordSet rec "SourceFile" d.1], acc.2)
          | Except.error e => (acc.1, acc.2 ++ [(d.1, e)]))
        acc =
      (acc.1 ++ docs.filterMap (fun d =>
          match d.2 with
          | Except.ok rec => some (recordSet rec "SourceFile" d.1)
          | Except.error _ => none),
       acc.2 ++ docs.filterMap (fun d =>
          match d.2 with
          | Except.ok _ => none
          | Except.error e => some (d.1, e)))
  | [], acc => by simp
  | d :: docs, acc => by
    rcases d with ⟨name, res⟩
    cases res with
    | ok rec =>
      rw [List.foldl_cons, processBatch_foldl_eq docs _]
      simp
    | error err =>
      rw [List.foldl_cons, processBatch_foldl_eq docs _]
      simp

theorem processBatch_eq (docs : List (String × Except String Rec)) :
    processBatch docs =
      (docs.filterMap (fun d =>
          match d.2 with
          | Except.ok rec => some (recordSet rec "SourceFile" d.1)
          | Except.error _ => none),
       docs.filterMap (fun d =>
          match d.2 with
          | Except.ok _ => none
          | Except.error e => some (d.1, e))) := by
  unfold processBatch
  rw [processBatch_foldl_eq docs ([], [])]
  simp

/-! Claim theorems. -/

/-- C7: vocabulary load never fails on a missing file: when the persisted
methods file does not exist, the loaded mapping contains exactly the four
known category keys (AnalyzedFields, TermPreprocessing, Clustering,
ClusterAnalysis), each mapped to an empty label set.  Totality of
`loadMethods` is the never-fails part of the claim. -/
theorem claim7_vocab_load_missing_file :
    ((loadMethods none).map Prod.fst =
      ["AnalyzedFields", "TermPreprocessing", "Clustering", "ClusterAnalysis"]) ∧
    vocabGet (loadMethods none) "AnalyzedFields" = [] ∧
    vocabGet (loadMethods none) "TermPreprocessing" = [] ∧
    vocabGet (loadMethods none) "Clustering" = [] ∧
    vocabGet (loadMethods none) "ClusterAnalysis" = [] := by
  refine ⟨?_, ?_, ?_, ?_, ?_⟩ <;> decide

/-- C2: the claim says merging an empty batch of new records into any
existing dataset succeeds and returns it unchanged.  On the code, with a
non-empty existing dataset the merge evaluates the SourceFile column of the
empty new-records frame and raises a pandas KeyError (modelled as the error
value below); only the empty-dataset case behaves as claimed.  This theorem
evaluates the embedded merge at both inputs. -/
theorem claim2_empty_batch_keyerror :
    mergeDatasets [[("SourceFile", "B"), ("Clustering", "LDA")]] [] =
      Except.error "KeyError: SourceFile" ∧
    mergeDatasets [] [] = Except.ok [] :=
  ⟨rfl, rfl⟩

/-- C1: for every existing dataset and non-empty batch of new records, merge
drops exactly the existing rows whose SourceFile occurs among the new
records' SourceFile values, keeping the remaining existing rows in their
original relative order followed by all new records in processing order; in
particular for existing identifiers A and B and a new record with
identifier A, the result is B's row unchanged followed by the new A row. -/
theorem claim1_merge_replacement :
    (∀ (existing newRecords : List Rec), newRecords ≠ [] →
      mergeDatasets existing newRecords = Except.ok
        ((existing.filter fun r =>
          decide (∀ n ∈ newRecords, rowSource r ≠ rowSource n)) ++ newRecords)) ∧
    (∀ (rA rB rN : Rec), rowSource rA = "A" → rowSource rB = "B" → rowSource rN = "A" →
      mergeDatasets [rA, rB] [rN] = Except.ok [rB, rN]) := by
  have hmain : ∀ (existing newRecords : List Rec), newRecords ≠ [] →
      mergeDatasets existing newRecords = Except.ok
        ((existing.filter fun r =>
          decide (∀ n ∈ newRecords, rowSource r ≠ rowSource n)) ++ newRecords) := by
    intro existing newRecords hne
    unfold mergeDatasets
    by_cases hex : existing.isEmpty
    · rw [if_pos hex]
      have hnil : existing = [] := by
        cases existing with
        | nil => rfl
        | cons a l => simp at hex
      subst hnil
      simp
    · have hnew : ¬ newRecords.isEmpty = true := by
        cases newRecords with
        | nil => exact absurd rfl hne
        | cons a l => simp
      rw [if_neg hex, if_neg hnew]
      congr 2
      apply List.filter_congr
      intro r _
      by_cases hmem : rowSource r ∈ newRecords.map rowSource
      · have hc : (newRecords.map rowSource).contains (rowSource r) = true := by
          simpa using hmem
        rw [hc]
        have hnall : ¬ (∀ n ∈ newRecords, rowSource r ≠ rowSource n) := by
          obtain ⟨n, hn, he⟩ := List.mem_map.mp hmem
          exact fun hall => hall n hn he.symm
        rw [decide_eq_false hnall]
        rfl
      · have hc : (newRecords.map rowSource).contains (rowSource r) = false := by
          simpa using hmem
        rw [hc]
        have hall : ∀ n ∈ newRecords, rowSource r ≠ rowSource n := by
          intro n hn he
          exact hmem (List.mem_map.mpr ⟨n, hn, he.symm⟩)
        rw [decide_eq_true hall]
        rfl
  refine ⟨hmain, ?_⟩
  intro rA rB rN hA hB hN
  rw [hmain [rA, rB] [rN] (by simp)]
  have h1 : decide (∀ n ∈ [rN], rowSource rA ≠ rowSource n) = false := by
    simp [hA, hN]
  have h2 : decide (∀ n ∈ [rN], rowSource rB ≠ rowSource n) = true := by
    simp [hB, hN]
  rw [List.filter_cons, List.filter_cons, h1, h2]
  simp

/-- C1 witness: the merge-replacement theorem applied to a concrete
two-row dataset and a concrete one-record batch. -/
theorem claim1_merge_replacement_witness :
    mergeDatasets [[("SourceFile", "A"), ("V", "old")], [("SourceFile", "B")]]
        [[("SourceFile", "A"), ("V", "new")]] =
      Except.ok [[("SourceFile", "B")], [("SourceFile", "A"), ("V", "new")]] :=
  claim1_merge_replacement.2 [("SourceFile", "A"), ("V", "old")] [("SourceFile", "B")]
    [("SourceFile", "A"), ("V", "new")] (by decide) (by decide) (by decide)

/-- C3 counterexample: the claim describes the stored field as the "; "
rejoin of the trimmed non-empty pieces themselves; at raw text
"lda; NOT SPECIFIED" that rejoin is "lda; NOT SPECIFIED", but the code
stores "lda; Not specified" (the case-insensitive sentinel item is rewritten
to the literal label before rejoining), so the claim as stated is false at
this input. -/
theorem claim3_counterexample :
    recordGet (normalizeRecord defaultEnumMethods (vocabInit defaultEnumMethods)
        [("Clustering", "lda; NOT SPECIFIED")]).1 "Clustering" = "lda; Not specified" ∧
    pyJoinSemiSpace (splitItems "lda; NOT SPECIFIED") = "lda; NOT SPECIFIED" ∧
    ("lda; Not specified" : String) ≠ "lda; NOT SPECIFIED" := by
  refine ⟨?_, ?_, ?_⟩ <;> decide

/-- C3 amended: for every record, vocabulary state and fixed category, the
normalization loop replaces the category's field by: taking the raw text
(defaulting to "Not specified" when the category is absent), splitting on
semicolons, trimming each piece, discarding empty pieces, replacing each
surviving piece whose case-insensitive form is "not specified" by the
literal "Not specified" and keeping every other piece verbatim, and
rejoining with "; " in post-trim order without deduplication; "Not
specified" exactly when no piece survives. -/
theorem claim3_amended_field_rewrite (vmap : Vocab) (rec : Rec) (key : String)
    (h : key ∈ knownCategories) :
    recordGet (normalizeRecord defaultEnumMethods vmap rec).1 key =
      canonicalField (recordGet rec key) :=
  recordGet_foldSteps_mem defaultEnumMethods (defaultEnumMethods.map Prod.fst)
    (rec, vmap) key (by decide) h

/-- C3 witness: the amended field-rewrite theorem applied to a record whose
Clustering field is whitespace-and-semicolons only (yielding exactly
"Not specified") and to a record with a duplicated item (kept without
deduplication). -/
theorem claim3_amended_witness :
    recordGet (normalizeRecord defaultEnumMethods (vocabInit defaultEnumMethods)
        [("Clustering", "  ; ;  ")]).1 "Clustering" = "Not specified" ∧
    recordGet (normalizeRecord defaultEnumMethods (vocabInit defaultEnumMethods)
        [("AnalyzedFields", "Keywords; Keywords")]).1 "AnalyzedFields" =
      "Keywords; Keywords" := by
  constructor
  · rw [claim3_amended_field_rewrite (vocabInit defaultEnumMethods)
      [("Clustering", "  ; ;  ")] "Clustering" (by decide)]
    decide
  · rw [claim3_amended_field_rewrite (vocabInit defaultEnumMethods)
      [("AnalyzedFields", "Keywords; Keywords")] "AnalyzedFields" (by decide)]
    decide

/-- C4: vocabulary monotonicity across any sequence of normalizations within
a run: for every loaded vocabulary, starting label mapping, batch of records
and category, (1) no label of the category's set is ever lost, and (2) every
label gained is a non-empty string that is not "Not specified" under any
letter casing (its character-wise lowering differs from "not specified"). -/
theorem claim4_vocab_monotonicity (e vmap : Vocab) (recs : List Rec) (key : String) :
    (∀ x, x ∈ vocabGet vmap key → x ∈ vocabGet (runNormalize e vmap recs) key) ∧
    (∀ x, x ∈ vocabGet (runNormalize e vmap recs) key → x ∉ vocabGet vmap key →
      x ≠ "" ∧ pyLower x ≠ "not specified") := by
  constructor
  · intro x hx
    exact mem_runNormalize_mono e recs vmap key x hx
  · intro x hx hnot
    rcases mem_runNormalize_new e recs vmap key x hx with h | h
    · exact absurd h hnot
    · exact h

/-- C4 witness: the monotonicity theorem applied to a one-record batch over
a vocabulary that already knows the label "Seed" for Clustering: "Seed"
survives, and the newly gained "LDA" is non-empty and not a sentinel
casing. -/
theorem claim4_vocab_monotonicity_witness :
    "Seed" ∈ vocabGet (runNormalize defaultEnumMethods [("Clustering", ["Seed"])]
      [[("Clustering", "LDA")]]) "Clustering" ∧
    ("LDA" ≠ "" ∧ pyLower "LDA" ≠ "not specified") := by
  constructor
  · exact (claim4_vocab_monotonicity defaultEnumMethods [("Clustering", ["Seed"])]
      [[("Clustering", "LDA")]] "Clustering").1 "Seed" (by decide)
  · exact (claim4_vocab_monotonicity defaultEnumMethods [("Clustering", ["Seed"])]
      [[("Clustering", "LDA")]] "Clustering").2 "LDA" (by decide) (by decide)

/-- C5: per-item handling, for any list of trimmed non-empty items processed
against a live label set containing the loaded list: an item whose
case-insensitive form is "not specified" is emitted as the literal
"Not specified" and inserts nothing; every other item is emitted verbatim and
afterwards the live set holds exactly its old labels plus the non-sentinel
items (insertion only when not already present, by set semantics). -/
theorem claim5_sentinel_and_verbatim (enumList live items : List String)
    (hsup : ∀ y ∈ enumList, y ∈ live)
    (_hitems : ∀ it ∈ items, it ≠ "" ∧ pyStrip it = it) :
    (normalizeItems enumList items live).1 = items.map (fun it =>
      if pyLower it = "not specified" then "Not specified" else it) ∧
    ∀ x, (x ∈ (normalizeItems enumList items live).2 ↔
      x ∈ live ∨ (x ∈ items ∧ pyLower x ≠ "not specified")) := by
  constructor
  · rw [normalizeItems_fst]
    rfl
  · intro x
    exact mem_normalizeItems_snd_of_superset hsup

/-- C5 witness: the per-item theorem applied to two concrete items, one a
case variant of the sentinel and one a verbatim label. -/
theorem claim5_sentinel_and_verbatim_witness :
    (normalizeItems ["LDA"] ["BERTopic", "NoT SpEcIfIeD"] ["LDA"]).1 =
      ["BERTopic", "Not specified"] ∧
    ("BERTopic" ∈ (normalizeItems ["LDA"] ["BERTopic", "NoT SpEcIfIeD"] ["LDA"]).2 ↔
      "BERTopic" ∈ ["LDA"] ∨ ("BERTopic" ∈ ["BERTopic", "NoT SpEcIfIeD"] ∧
        pyLower "BERTopic" ≠ "not specified")) := by
  have h := claim5_sentinel_and_verbatim ["LDA"] ["LDA"] ["BERTopic", "NoT SpEcIfIeD"]
    (by decide) (by decide)
  exact ⟨h.1.trans (by decide), h.2 "BERTopic"⟩

/-- C8: idempotence of normalization on canonical text: (1) a single
already-canonical item (trimmed, non-empty, semicolon-free, not a case
variant of "Not specified") is returned unchanged by the field
normalization, and (2) normalizing the canonical output of any previous
field normalization returns that output unchanged, for any vocabulary
states. -/
theorem claim8_normalize_idempotent :
    (∀ (enumList live : List String) (s : String),
      pyStrip s = s → s ≠ "" → ';' ∉ s.data → pyLower s ≠ "not specified" →
      (normalizeField enumList live s).1 = s) ∧
    (∀ (e1 l1 e2 l2 : List String) (raw : String),
      (normalizeField e1 l1 (normalizeField e2 l2 raw).1).1 =
        (normalizeField e2 l2 raw).1) := by
  constructor
  · intro enumList live s h1 h2 h3 h4
    rw [normalizeField_fst]
    unfold canonicalField
    rw [splitItems_single h1 h2 h3]
    simp only [List.map_cons, List.map_nil, itemLabel_of_not_sentinel h4]
    show pyJoinSemiSpace [s] = s
    rfl
  · intro e1 l1 e2 l2 raw
    rw [normalizeField_fst, normalizeField_fst, canonicalField_idem]

/-- C8 witness: the idempotence theorem applied to the canonical item
"Lemmatization" and to the output of a messy raw field. -/
theorem claim8_normalize_idempotent_witness :
    (normalizeField [] [] "Lemmatization").1 = "Lemmatization" ∧
    (normalizeField ["x"] ["x"] (normalizeField [] [] "A; not SPECIFIED; ;B ").1).1 =
      (normalizeField [] [] "A; not SPECIFIED; ;B ").1 := by
  constructor
  · exact claim8_normalize_idempotent.1 [] [] "Lemmatization"
      (by decide) (by decide) (by decide) (by decide)
  · exact claim8_normalize_idempotent.2 ["x"] ["x"] [] [] "A; not SPECIFIED; ;B "

/-- C9: frame property: rewriting a record through the normalization loop
changes only entries whose key is one of the four fixed categories; the
sublist of all other entries (document title, counts, unrecognized keys) is
byte-for-byte unchanged, and the rewrite is total, so an unrecognized
category key never causes an error. -/
theorem claim9_frame_property (vmap : Vocab) (rec : Rec) :
    ((normalizeRecord defaultEnumMethods vmap rec).1).filter
        (fun p => !(knownCategories.contains p.1)) =
      rec.filter (fun p => !(knownCategories.contains p.1)) :=
  filter_notin_foldSteps defaultEnumMethods (defaultEnumMethods.map Prod.fst)
    (rec, vmap) (fun _ hk => hk)

/-- C6: failure isolation: if producing the record for document X fails, the
batch loop reports (X, error) per document and excludes X from the new
records; every successfully produced record is in the batch and carries its
own file name, so no new record has X's identifier; and provided some
document succeeded, the merge succeeds, contains all new records, and keeps
every existing row whose identifier is X unmodified. -/
theorem claim6_failure_isolation (docs : List (String × Except String Rec))
    (existing : List Rec) (X e : String)
    (hfail : (X, Except.error e) ∈ docs)
    (hname : ∀ d ∈ docs, d.2.isOk = true → d.1 ≠ X)
    (hsucc : ∃ d ∈ docs, d.2.isOk = true) :
    ((X, e) ∈ (processBatch docs).2) ∧
    (∀ r ∈ (processBatch docs).1, rowSource r ≠ X) ∧
    (∀ (name : String) (rec : Rec), (name, Except.ok rec) ∈ docs →
      recordSet rec "SourceFile" name ∈ (processBatch docs).1) ∧
    (∃ merged, mergeDatasets existing (processBatch docs).1 = Except.ok merged ∧
      (∀ r ∈ (processBatch docs).1, r ∈ merged) ∧
      (∀ r ∈ existing, rowSource r = X → r ∈ merged)) := by
  have hok : (processBatch docs).1 = docs.filterMap (fun d =>
      match d.2 with
      | Except.ok rec => some (recordSet rec "SourceFile" d.1)
      | Except.error _ => none) := by rw [processBatch_eq]
  have herr : (processBatch docs).2 = docs.filterMap (fun d =>
      match d.2 with
      | Except.ok _ => none
      | Except.error err => some (d.1, err)) := by rw [processBatch_eq]
  have hnosrc : ∀ r ∈ (processBatch docs).1, rowSource r ≠ X := by
    intro r hr
    rw [hok] at hr
    obtain ⟨d, hd, hfd⟩ := List.mem_filterMap.mp hr
    rcases d with ⟨name, res⟩
    cases res with
    | ok rec =>
      have hrr : recordSet rec "SourceFile" name = r := Option.some.inj hfd
      rw [← hrr, rowSource_recordSet]
      exact hname (name, Except.ok rec) hd rfl
    | error err => exact absurd hfd (by simp)
  have hmemok : ∀ (name : String) (rec : Rec), (name, Except.ok rec) ∈ docs →
      recordSet rec "SourceFile" name ∈ (processBatch docs).1 := by
    intro name rec hmem
    rw [hok]
    exact List.mem_filterMap.mpr ⟨(name, Except.ok rec), hmem, rfl⟩
  have hne : (processBatch docs).1 ≠ [] := by
    obtain ⟨d, hd, hdok⟩ := hsucc
    rcases d with ⟨name, res⟩
    cases res with
    | error err => exact Bool.noConfusion hdok
    | ok rec =>
      intro hnil
      have hm := hmemok name rec hd
      rw [hnil] at hm
      exact absurd hm (List.not_mem_nil _)
  refine ⟨?_, hnosrc, hmemok, ?_⟩
  · rw [herr]
    exact List.mem_filterMap.mpr ⟨(X, Except.error e), hfail, rfl⟩
  · by_cases hex : existing.isEmpty
    · refine ⟨existing ++ (processBatch docs).1, ?_, ?_, ?_⟩
      · unfold mergeDatasets
        rw [if_pos hex]
      · intro r hr
        exact List.mem_append_right _ hr
      · intro r hr _
        exact List.mem_append_left _ hr
    · have hnewne : (processBatch docs).1.isEmpty = false := by
        cases hpn : (processBatch docs).1 with
        | nil => exact absurd hpn hne
        | cons a l => rfl
      refine ⟨(existing.filter fun r =>
          !(((processBatch docs).1.map rowSource).contains (rowSource r))) ++
          (processBatch docs).1, ?_, ?_, ?_⟩
      · unfold mergeDatasets
        rw [if_neg hex, if_neg (by rw [hnewne]; simp)]
      · intro r hr
        exact List.mem_append_right _ hr
      · intro r hr hX
        apply List.mem_append_left
        apply List.mem_filter.mpr
        refine ⟨hr, ?_⟩
        have hno : rowSource r ∉ (processBatch docs).1.map rowSource := by
          intro hc
          obtain ⟨n, hn, hens⟩ := List.mem_map.mp hc
          exact hnosrc n hn (by rw [hens, hX])
        have hcf : ((processBatch docs).1.map rowSource).contains (rowSource r) = false := by
          simpa using hno
        rw [hcf]
        rfl

/-- C6 witness: the failure-isolation theorem applied to a three-document
batch whose middle document x.pdf fails, against an existing dataset holding
a prior row for x.pdf. -/
theorem claim6_failure_isolation_witness :
    ("x.pdf", "boom") ∈ (processBatch [("a.pdf", Except.ok [("Document", "d1")]),
      ("x.pdf", Except.error "boom"), ("c.pdf", Except.ok [("Document", "d3")])]).2 ∧
    ∃ merged, mergeDatasets [[("SourceFile", "x.pdf"), ("Old", "1")]]
        (processBatch [("a.pdf", Except.ok [("Document", "d1")]),
          ("x.pdf", Except.error "boom"), ("c.pdf", Except.ok [("Document", "d3")])]).1 =
        Except.ok merged ∧
      [("SourceFile", "x.pdf"), ("Old", "1")] ∈ merged := by
  have h := claim6_failure_isolation
    [("a.pdf", Except.ok [("Document", "d1")]), ("x.pdf", Except.error "boom"),
     ("c.pdf", Except.ok [("Document", "d3")])]
    [[("SourceFile", "x.pdf"), ("Old", "1")]] "x.pdf" "boom"
    (List.mem_cons_of_mem _ (List.mem_cons_self _ _)) (by decide) (by decide)
  refine ⟨h.1, ?_⟩
  obtain ⟨merged, hm, _, hold⟩ := h.2.2.2
  exact ⟨merged, hm, hold [("SourceFile", "x.pdf"), ("Old", "1")]
    (List.mem_cons_self _ _) (by decide)⟩

/-- C10: (1) because the live label sets start as supersets of the loaded
lists (line 54) and set insertion is idempotent, the run with the
enum-membership insertion guard of lines 119-120 computes exactly the same
normalize_map as the guard-free run that inserts every non-sentinel item
unconditionally; (2) for a run over any batch, the per-category label set
written at save time equals, in membership, the set loaded at startup united
with all trimmed non-sentinel items observed in the batch's raw category
texts. -/
theorem claim10_guard_refinement (e : Vocab) (recs : List Rec)
    (hnd : (e.map Prod.fst).Nodup) :
    runNormalize e (vocabInit e) recs = runNormalizeU e (vocabInit e) recs ∧
    (∀ key ∈ e.map Prod.fst, ∀ x,
      x ∈ vocabGet (save_methods (runNormalize e (vocabInit e) recs)) key ↔
        x ∈ vocabGet (vocabInit e) key ∨
          ((∃ rec ∈ recs, x ∈ splitItems (recordGet rec key)) ∧
            pyLower x ≠ "not specified")) := by
  have hsup : ∀ key y, y ∈ vocabGet e key → y ∈ vocabGet (vocabInit e) key :=
    fun _ y hy => mem_vocabGet_vocabInit.mpr hy
  constructor
  · exact runNormalize_guard_equiv e recs (vocabInit e) hsup
  · intro key hkey x
    rw [vocabGet_save_methods, mem_sortStrings,
      mem_runNormalize_iff e hnd recs (vocabInit e) (vocabInit_keys e) key x]
    constructor
    · rintro (h | ⟨_, h2, h3, _⟩)
      · exact Or.inl h
      · exact Or.inr ⟨h2, h3⟩
    · rintro (h | ⟨h2, h3⟩)
      · exact Or.inl h
      · by_cases hm : x ∈ vocabGet e key
        · exact Or.inl (mem_vocabGet_vocabInit.mpr hm)
        · exact Or.inr ⟨hkey, h2, h3, hm⟩

/-- C10 witness: the guard-refinement theorem applied to the default
configuration and a one-record batch contributing the Clustering label
"LDA". -/
theorem claim10_guard_refinement_witness :
    runNormalize defaultEnumMethods (vocabInit defaultEnumMethods)
        [[("Clustering", "LDA")]] =
      runNormalizeU defaultEnumMethods (vocabInit defaultEnumMethods)
        [[("Clustering", "LDA")]] ∧
    ("LDA" ∈ vocabGet (save_methods (runNormalize defaultEnumMethods
        (vocabInit defaultEnumMethods) [[("Clustering", "LDA")]])) "Clustering" ↔
      "LDA" ∈ vocabGet (vocabInit defaultEnumMethods) "Clustering" ∨
        ((∃ rec ∈ [[("Clustering", "LDA")]], "LDA" ∈ splitItems (recordGet rec "Clustering")) ∧
          pyLower "LDA" ≠ "not specified")) := by
  have h := claim10_guard_refinement defaultEnumMethods [[("Clustering", "LDA")]] (by decide)
  exact ⟨h.1, h.2 "Clustering" (by decide) "LDA"⟩
